import Mathlib

/-!
Verification development for the `lambda_packager` staging-and-assembly
pipeline (`lambda_packager/package.py`).

The embedding models:
  * the hidden-file predicate `LambdaAutoPackage._is_hidden_file`
    (`name.startswith(".") or "/." in name`) on `List Char` strings;
  * the ignore callback `LambdaAutoPackage._is_hidden_file_list`;
  * the staging filesystem as a flat list of `(path, kind)` entries, with
    `Path.mkdir(exist_ok=True)` (single level), `os.makedirs(..., exist_ok)`
    (all levels) and `shutil.copyfile` as partial operations;
  * the project tree as an inductive `FSO` tree, and
    `shutil.copytree(dirs_exist_ok=True, ignore=...)` as a recursive copy
    driven by the ignore callback, mirroring how `scandir` entry paths are
    extended with `"/" + name` at each level;
  * `LambdaAutoPackage._copy_source_files`, `_install_requirements_txt`,
    `_create_zip_file`, and the strategy selection of `execute`.
-/

namespace LambdaPackager

/-- Python `name.startswith(".")` on a string viewed as a `List Char`. -/
def startsWithDot : List Char → Bool
  | [] => false
  | c :: _ => decide (c = '.')

/-- Python `"/." in name` (substring containment of the two-character
pattern slash-dot) on a string viewed as a `List Char`. -/
def containsSlashDot : List Char → Bool
  | a :: b :: rest => (decide (a = '/') && decide (b = '.')) || containsSlashDot (b :: rest)
  | _ => false

/-- `LambdaAutoPackage._is_hidden_file(name)`:
`name.startswith(".") or "/." in name` (package.py lines 141-143). -/
def is_hidden_file (name : List Char) : Bool :=
  startsWithDot name || containsSlashDot name

/-- `LambdaAutoPackage._is_hidden_file_list(src, files)` (package.py lines
130-139): if the source directory path is itself hidden, every listed name
is ignored; otherwise exactly the hidden names are ignored. -/
def is_hidden_file_list (src : List Char) (files : List String) : List String :=
  if is_hidden_file src then files
  else files.filter (fun f => is_hidden_file f.toList)

/-- Splitting a string into its `/`-separated segments, i.e. Python
`name.split("/")`; this is the notion of "path segment" used by the spec. -/
def splitOnSlash : List Char → List (List Char)
  | [] => [[]]
  | c :: rest =>
    if c = '/' then [] :: splitOnSlash rest
    else (splitOnSlash rest).modifyHead (fun s => c :: s)

/-- A path as a list of segments (the components of a `pathlib.Path`
relative path). -/
abbrev Path := List String

/-- A segment is hidden when its name starts with a dot (spec glossary:
"Hidden file/directory: any path component beginning with a dot"). -/
def hiddenSeg (n : String) : Bool := startsWithDot n.toList

/-- Some segment of the path is hidden. -/
def relHidden (p : Path) : Bool := p.any hiddenSeg

/-- The string rendering of a relative path (`str(relative_path)`):
segments joined by the separator. -/
def relStr : Path → List Char
  | [] => []
  | [n] => n.toList
  | n :: r :: rest => n.toList ++ '/' :: relStr (r :: rest)

/-- The string rendering of `source_dir.joinpath(relative_path)`, i.e. the
`str(object)` handed to `shutil.copytree`: the string of `source_dir`
(empty when the project directory is the working directory), joined to the
relative path. -/
def objStr (pre : List Char) (rel : Path) : List Char :=
  if pre.isEmpty then relStr rel else pre ++ '/' :: relStr rel

/-- Kind of a filesystem entry in the staging (or output) area. -/
inductive EKind where
  | file : EKind
  | dir : EKind
deriving DecidableEq

/-- The staging directory as a flat listing: each entry is a path relative
to the staging root, tagged as a regular file or a directory.  The staging
root itself is implicit and always exists. -/
abbrev Entry := Path × EKind

def isFileAt (st : List Entry) (p : Path) : Bool := decide ((p, EKind.file) ∈ st)

def isDirAt (st : List Entry) (p : Path) : Bool :=
  p.isEmpty || decide ((p, EKind.dir) ∈ st)

/-- Python `Path(p).mkdir(exist_ok=True)` — note: no `parents=True`, so only
the final component is created; a missing ancestor is an error (`none`).
An existing directory is accepted, an existing file is an error. -/
def mkdirNP (st : List Entry) (p : Path) : Option (List Entry) :=
  if p.isEmpty then some st
  else if isFileAt st p then none
  else if isDirAt st p then some st
  else if isDirAt st p.dropLast then some (st ++ [(p, EKind.dir)])
  else none

/-- Worker for `os.makedirs(..., exist_ok=True)`: walk the remaining
segments, creating each missing directory level; any level occupied by a
regular file is an error. -/
def makedirsFrom (st : List Entry) (don : Path) : List String → Option (List Entry)
  | [] => some st
  | n :: rest =>
    if isFileAt st (don ++ [n]) then none
    else if isDirAt st (don ++ [n]) then makedirsFrom st (don ++ [n]) rest
    else makedirsFrom (st ++ [(don ++ [n], EKind.dir)]) (don ++ [n]) rest

/-- `os.makedirs(p, exist_ok=True)` as used by `shutil.copytree` with
`dirs_exist_ok=True`: creates every missing intermediate directory. -/
def makedirs (st : List Entry) (p : Path) : Option (List Entry) :=
  makedirsFrom st [] p

/-- `shutil.copyfile(src, dst)` restricted to what the claims need: fails
if the destination is an existing directory or its parent directory does
not exist; otherwise (over)writes a regular file at `p`. -/
def copyfileAt (st : List Entry) (p : Path) : Option (List Entry) :=
  if isDirAt st p then none
  else if isDirAt st p.dropLast then
    some (if isFileAt st p then st else st ++ [(p, EKind.file)])
  else none

/-- The project tree under the project directory: a filesystem object is a
regular file or a directory with children. -/
inductive FSO where
  | file (name : String) : FSO
  | dir (name : String) (children : List FSO) : FSO

def fsoName : FSO → String
  | .file n => n
  | .dir n _ => n

def findChild (n : String) : List FSO → Option FSO
  | [] => none
  | c :: rest => if fsoName c = n then some c else findChild n rest

/-- Resolve a relative path inside the project tree (used to model
`object.is_file()` / `object.is_dir()` on a matched object). -/
def lookupFSO (cs : List FSO) : Path → Option FSO
  | [] => none
  | [n] => findChild n cs
  | n :: r :: rest =>
    match findChild n cs with
    | some (.dir _ cc) => lookupFSO cc (r :: rest)
    | _ => none

/-- The recursive body of `shutil.copytree(str(object), str(new_location),
dirs_exist_ok=True, ignore=cb)` after the per-directory setup: iterate the
listed children, skipping names returned by the ignore callback; a child
file is copied with `copyfile`, a child directory recurses with the scandir
entry path `src + "/" + name` and a freshly computed ignore list (the
callback is `_is_hidden_file_list` when `ignore_hidden_files` is set,
otherwise no name is ever ignored). -/
def copyEntries (ihf : Bool) :
    List Char → List String → Path → List FSO → List Entry → Option (List Entry)
  | _, _, _, [], st => some st
  | srcStr, ignored, dst, FSO.file n :: rest, st =>
    if n ∈ ignored then copyEntries ihf srcStr ignored dst rest st
    else
      match copyfileAt st (dst ++ [n]) with
      | none => none
      | some st1 => copyEntries ihf srcStr ignored dst rest st1
  | srcStr, ignored, dst, FSO.dir n cc :: rest, st =>
    if n ∈ ignored then copyEntries ihf srcStr ignored dst rest st
    else
      match makedirs st (dst ++ [n]) with
      | none => none
      | some st1 =>
        match copyEntries ihf (srcStr ++ '/' :: n.toList)
            (if ihf then
              is_hidden_file_list (srcStr ++ '/' :: n.toList) (cc.map fsoName)
            else []) (dst ++ [n]) cc st1 with
        | none => none
        | some st2 => copyEntries ihf srcStr ignored dst rest st2

/-- One iteration of the loop in `LambdaAutoPackage._copy_source_files`
(package.py lines 85-125) for a matched object with relative path `rel`:
 * a regular file: `new_location.parent.mkdir(exist_ok=True)` first, then
   the hidden check on `str(relative_path)` (skip when hidden), else
   `shutil.copyfile`;
 * a directory: `shutil.copytree(..., dirs_exist_ok=True, ignore=cb)` with
   the callback receiving `str(object)` (which includes the project
   directory prefix `pre`);
 * neither (vanished object): a warning, the loop continues. -/
def copyObject (ihf : Bool) (pre : List Char) (project : List FSO)
    (st : List Entry) (rel : Path) : Option (List Entry) :=
  match lookupFSO project rel with
  | some (FSO.file _) =>
    match mkdirNP st rel.dropLast with
    | none => none
    | some st1 =>
      if ihf && is_hidden_file (relStr rel) then some st1
      else copyfileAt st1 rel
  | some (FSO.dir _ cc) =>
    match makedirs st rel with
    | none => none
    | some st1 =>
      copyEntries ihf (objStr pre rel)
        (if ihf then is_hidden_file_list (objStr pre rel) (cc.map fsoName) else [])
        rel cc st1
  | none => some st

/-- `LambdaAutoPackage._copy_source_files`: process the matched objects in
order, threading the staging directory; any filesystem error aborts the
whole copy (the Python exception propagates out of `execute`). -/
def copy_source_files (ihf : Bool) (pre : List Char) (project : List FSO) :
    List Path → List Entry → Option (List Entry)
  | [], st => some st
  | r :: rs, st =>
    match copyObject ihf pre project st r with
    | none => none
    | some st1 => copy_source_files ihf pre project rs st1

/-- No path of a regular file in the staging listing has a hidden segment. -/
def filesClean (st : List Entry) : Prop :=
  ∀ p : Path, (p, EKind.file) ∈ st → relHidden p = false

/-- The cumulative skip decision of the recursive-directory-copy filter for
an entry nested at relative position `inner` inside a copied directory
whose scandir path string is `srcStr`: at each traversal level the
`_is_hidden_file_list` callback drops the entry when the current source
path string is hidden (the callback then returns the whole listing) or
when the entry name crossed at this level is a hidden name; the source
path string grows by `"/" + name` per level exactly as the `scandir` entry
paths handed to `shutil.copytree`'s recursion do.  By
`mem_is_hidden_file_list_iff` each disjunct is literally the membership of
the crossed name in the callback's returned ignore list. -/
def treeSkips (srcStr : List Char) : List String → Bool
  | [] => false
  | n :: rest =>
    is_hidden_file srcStr || is_hidden_file n.toList ||
      treeSkips (srcStr ++ '/' :: n.toList) rest

/-- Observable actions of `LambdaAutoPackage.execute` (package.py lines
36-66), in the order they are taken. -/
inductive Event where
  | exportCall : Event
  | installCall (noDeps : Bool) : Event
  | warnNoDeps : Event
  | copySources : Event
  | createZip : Event
deriving DecidableEq

/-- `LambdaAutoPackage._install_requirements_txt` (package.py lines
153-175): if the requirements file is not a regular file, a `ValueError`
is raised (`none`) before any subprocess is started; otherwise the pip
command line is assembled, with `--no-deps` appended exactly when
`no_deps` is set, and handed to `subprocess.check_output`. -/
def install_requirements_txt (reqIsFile : Bool) (reqPath target : String)
    (noDeps : Bool) : Option (List String) :=
  if reqIsFile then
    some (["python", "-m", "pip", "install", "-r", reqPath, "--target", target] ++
      (if noDeps then ["--no-deps"] else []))
  else none

/-- Result of one pipeline run: the events that happened, and the final
staging listing (`none` when the run aborted with an exception, in which
case no archive is produced). -/
structure ExecOutcome where
  events : List Event
  staged : Option (List Entry)
deriving DecidableEq

/-- The tail of `execute` after dependency handling: `_copy_source_files`
runs (and its filesystem errors propagate, aborting before the zip step);
on success `_create_zip_file` builds `dist/lambda.zip` from the staging
directory — a target that always passes the extension check and whose
parent is created (one level, under the existing project directory). -/
def runCopyPhase (evs : List Event) (c : Option (List Entry)) : ExecOutcome :=
  match c with
  | none => ⟨evs ++ [Event.copySources], none⟩
  | some st => ⟨evs ++ [Event.copySources, Event.createZip], some st⟩

/-- `LambdaAutoPackage.execute` (package.py lines 36-66).
`hasReq` models `project_directory/requirements.txt` being a regular file
(so in that branch the installer's own `is_file` re-check passes by
construction); `poetryUsed` models `poetry_is_used(project_directory)`;
`exportOk` models whether `export_poetry` left a regular file at
`tmp_folder/requirements.txt`; `deps` is the staging listing produced by
the dependency install (in the poetry branch it also holds the exported
requirements file, which lives inside the staging directory). -/
def executeModel (hasReq poetryUsed exportOk : Bool) (deps : List Entry)
    (ihf : Bool) (pre : List Char) (project : List FSO)
    (matched : List Path) : ExecOutcome :=
  if hasReq then
    match install_requirements_txt true "requirements.txt" "tmp" false with
    | none => ⟨[], none⟩
    | some _ =>
      runCopyPhase [Event.installCall false]
        (copy_source_files ihf pre project matched deps)
  else if poetryUsed then
    match install_requirements_txt exportOk "tmp/requirements.txt" "tmp" true with
    | none => ⟨[Event.exportCall], none⟩
    | some _ =>
      runCopyPhase [Event.exportCall, Event.installCall true]
        (copy_source_files ihf pre project matched deps)
  else
    runCopyPhase [Event.warnNoDeps]
      (copy_source_files ihf pre project matched [])

/-- Result of `LambdaAutoPackage._create_zip_file`: the raised `ValueError`
for a bad extension, some other filesystem error, or success with the
updated output-area listing. -/
inductive ZipOutcome where
  | validationError : ZipOutcome
  | fsError : ZipOutcome
  | ok (out : List Entry) : ZipOutcome
deriving DecidableEq

/-- Python `target.endswith(".zip")` on the rendered path string. -/
def endsWithZip (t : List Char) : Bool := t.reverse.take 4 == ['p', 'i', 'z', '.']

/-- `LambdaAutoPackage._create_zip_file(source_dir, target)` (package.py
lines 177-186): the extension is validated first (a failure raises before
anything is written); then `Path(target).parent.mkdir(exist_ok=True)` —
single level, no `parents=True` — and `shutil.make_archive` (over)writes
the archive file at `target`.  `out` is the listing of the output area the
target path is relative to; the staging contents are irrelevant here. -/
def create_zip_file (target : Path) (out : List Entry) : ZipOutcome :=
  if endsWithZip (relStr target) then
    match mkdirNP out target.dropLast with
    | none => ZipOutcome.fsError
    | some out1 =>
      match copyfileAt out1 target with
      | none => ZipOutcome.fsError
      | some out2 => ZipOutcome.ok out2
  else ZipOutcome.validationError

/-- The outcome is a successfully produced archive. -/
def zipOk : ZipOutcome → Bool
  | ZipOutcome.ok _ => true
  | _ => false

theorem splitOnSlash_cons (c : Char) (l : List Char) :
    splitOnSlash (c :: l) =
      if c = '/' then [] :: splitOnSlash l
      else (splitOnSlash l).modifyHead (fun s => c :: s) := rfl

theorem splitOnSlash_ne_nil (l : List Char) : splitOnSlash l ≠ [] := by
  induction l with
  | nil => simp [splitOnSlash]
  | cons c rest ih =>
    rw [splitOnSlash_cons]
    by_cases hc : c = '/'
    · simp [hc]
    · rw [if_neg hc]
      cases hyp : splitOnSlash rest with
      | nil => exact absurd hyp ih
      | cons h t => simp [List.modifyHead]

/-- The first `/`-segment of a string starts with a dot exactly when the
string itself does. -/
theorem startsWithDot_headI_splitOnSlash (l : List Char) :
    startsWithDot (splitOnSlash l).headI = startsWithDot l := by
  cases l with
  | nil => simp [splitOnSlash, startsWithDot]
  | cons c rest =>
    rw [splitOnSlash_cons]
    by_cases hc : c = '/'
    · subst hc
      simp [startsWithDot]
    · rw [if_neg hc]
      obtain ⟨h, t, ht⟩ : ∃ h t, splitOnSlash rest = h :: t := by
        cases hyp : splitOnSlash rest with
        | nil => exact absurd hyp (splitOnSlash_ne_nil rest)
        | cons h t => exact ⟨h, t, rfl⟩
      rw [ht]
      simp [List.modifyHead, startsWithDot]

/-- The string contains the substring slash-dot exactly when some segment
other than the first starts with a dot. -/
theorem containsSlashDot_eq_any_tail (l : List Char) :
    containsSlashDot l = ((splitOnSlash l).tail.any startsWithDot) := by
  induction l with
  | nil => simp [containsSlashDot, splitOnSlash]
  | cons c rest ih =>
    cases rest with
    | nil =>
      by_cases hc : c = '/'
      · subst hc; simp [containsSlashDot, splitOnSlash, startsWithDot]
      · simp [containsSlashDot, splitOnSlash, hc]
    | cons r rest' =>
      obtain ⟨h, t, ht⟩ : ∃ h t, splitOnSlash (r :: rest') = h :: t := by
        cases hyp : splitOnSlash (r :: rest') with
        | nil => exact absurd hyp (splitOnSlash_ne_nil (r :: rest'))
        | cons h t => exact ⟨h, t, rfl⟩
      have hswd : startsWithDot h = startsWithDot (r :: rest') := by
        have := startsWithDot_headI_splitOnSlash (r :: rest')
        rw [ht] at this
        simpa using this
      have htail : containsSlashDot (r :: rest') = t.any startsWithDot := by
        rw [ih, ht]; simp
      by_cases hc : c = '/'
      · subst hc
        have h1 : splitOnSlash ('/' :: r :: rest') = [] :: splitOnSlash (r :: rest') := by
          rw [splitOnSlash_cons, if_pos rfl]
        rw [h1, List.tail_cons, ht]
        show ((decide ('/' = '/') && decide (r = '.')) || containsSlashDot (r :: rest')) = _
        rw [htail, List.any_cons, hswd]
        show _ = (decide (r = '.') || t.any startsWithDot)
        simp
      · have h1 : splitOnSlash (c :: r :: rest') = (c :: h) :: t := by
          rw [splitOnSlash_cons, if_neg hc, ht]
          simp [List.modifyHead]
        rw [h1, List.tail_cons]
        show ((decide (c = '/') && decide (r = '.')) || containsSlashDot (r :: rest')) = _
        rw [htail]
        simp [hc]

/-- Hiddenness of a whole string is: first segment hidden, or a later
segment hidden. -/
theorem is_hidden_file_eq_any_segment (l : List Char) :
    is_hidden_file l = (splitOnSlash l).any startsWithDot := by
  obtain ⟨h, t, ht⟩ : ∃ h t, splitOnSlash l = h :: t := by
    cases hyp : splitOnSlash l with
    | nil => exact absurd hyp (splitOnSlash_ne_nil l)
    | cons h t => exact ⟨h, t, rfl⟩
  have hh : startsWithDot h = startsWithDot l := by
    have := startsWithDot_headI_splitOnSlash l
    rw [ht] at this
    simpa using this
  rw [is_hidden_file, containsSlashDot_eq_any_tail, ht, List.tail_cons, List.any_cons, hh]

theorem containsSlashDot_slash_cons (t : List Char) :
    containsSlashDot ('/' :: t) = (startsWithDot t || containsSlashDot t) := by
  cases t with
  | nil => simp [containsSlashDot, startsWithDot]
  | cons b t' =>
    show ((decide ('/' = '/') && decide (b = '.')) || containsSlashDot (b :: t')) = _
    simp [startsWithDot]

theorem containsSlashDot_append (s t : List Char) :
    containsSlashDot (s ++ '/' :: t) =
      (containsSlashDot s || (startsWithDot t || containsSlashDot t)) := by
  induction s with
  | nil =>
    rw [List.nil_append, containsSlashDot_slash_cons]
    simp [containsSlashDot]
  | cons a s' ih =>
    cases s' with
    | nil =>
      show ((decide (a = '/') && decide ('/' = '.')) || containsSlashDot ('/' :: t)) = _
      rw [containsSlashDot_slash_cons]
      simp [containsSlashDot]
    | cons b s'' =>
      show ((decide (a = '/') && decide (b = '.')) || containsSlashDot (b :: (s'' ++ '/' :: t))) = _
      simp only [List.cons_append] at ih
      rw [ih]
      show _ = ((decide (a = '/') && decide (b = '.')) || containsSlashDot (b :: s'')
        || (startsWithDot t || containsSlashDot t))
      simp [Bool.or_assoc]

theorem startsWithDot_append_slash (s t : List Char) :
    startsWithDot (s ++ '/' :: t) = startsWithDot s := by
  cases s with
  | nil => simp [startsWithDot]
  | cons a s' => simp [startsWithDot]

/-- Decomposing the hidden-file predicate over a path-separator join. -/
theorem is_hidden_file_append (s t : List Char) :
    is_hidden_file (s ++ '/' :: t) = (is_hidden_file s || is_hidden_file t) := by
  rw [is_hidden_file, is_hidden_file, is_hidden_file, containsSlashDot_append,
    startsWithDot_append_slash]
  cases startsWithDot s <;> cases containsSlashDot s <;>
    cases startsWithDot t <;> cases containsSlashDot t <;> rfl

theorem containsSlashDot_eq_false_of_noSlash (l : List Char) (h : '/' ∉ l) :
    containsSlashDot l = false := by
  induction l with
  | nil => rfl
  | cons a l' ih =>
    have ha : a ≠ '/' := by
      intro hcon
      exact h (by simp [hcon])
    have hl' : '/' ∉ l' := fun hm => h (List.mem_cons_of_mem a hm)
    cases l' with
    | nil => rfl
    | cons b l'' =>
      show ((decide (a = '/') && decide (b = '.')) || containsSlashDot (b :: l'')) = false
      rw [ih hl']
      simp [ha]

/-- On a bare name (no separator), the hidden-file predicate is just the
leading-dot test. -/
theorem is_hidden_file_eq_startsWithDot (l : List Char) (h : '/' ∉ l) :
    is_hidden_file l = startsWithDot l := by
  rw [is_hidden_file, containsSlashDot_eq_false_of_noSlash l h, Bool.or_false]

theorem is_hidden_file_nil : is_hidden_file [] = false := rfl

/-- For well-formed segment names (no separator inside a name), the string
hidden test agrees with the segment-wise hidden test. -/
theorem is_hidden_file_relStr (p : Path) (h : ∀ n ∈ p, '/' ∉ n.toList) :
    is_hidden_file (relStr p) = relHidden p := by
  induction p with
  | nil => rfl
  | cons n rest ih =>
    cases rest with
    | nil =>
      rw [relStr, relHidden]
      rw [is_hidden_file_eq_startsWithDot n.toList (h n (by simp))]
      simp [hiddenSeg]
    | cons r rest' =>
      rw [relStr, is_hidden_file_append]
      rw [is_hidden_file_eq_startsWithDot n.toList (h n (by simp))]
      rw [ih (fun m hm => h m (List.mem_cons_of_mem n hm))]
      simp [relHidden, hiddenSeg]

/-- A segment-wise hidden path always renders to a hidden string (no
well-formedness needed in this direction). -/
theorem is_hidden_file_relStr_of_relHidden (p : Path) (h : relHidden p = true) :
    is_hidden_file (relStr p) = true := by
  induction p with
  | nil => simp [relHidden] at h
  | cons n rest ih =>
    cases rest with
    | nil =>
      rw [relStr]
      rw [relHidden] at h
      simp only [List.any_cons, List.any_nil, Bool.or_false] at h
      rw [is_hidden_file]
      rw [hiddenSeg] at h
      rw [h]
      rfl
    | cons r rest' =>
      rw [relStr, is_hidden_file_append]
      rw [relHidden] at h
      simp only [List.any_cons] at h
      rcases Bool.or_eq_true_iff.mp h with h1 | h2
      · rw [is_hidden_file]
        rw [hiddenSeg] at h1
        rw [h1]
        rfl
      · rw [ih (by simpa [relHidden] using h2)]
        simp

/-- Hiddenness of the copytree source string splits into hiddenness of the
project-directory prefix and hiddenness of the relative path string. -/
theorem is_hidden_file_objStr (pre : List Char) (rel : Path) :
    is_hidden_file (objStr pre rel) =
      (is_hidden_file pre || is_hidden_file (relStr rel)) := by
  rw [objStr]
  cases pre with
  | nil => simp [is_hidden_file_nil]
  | cons c pre' =>
    rw [List.isEmpty_cons]
    simp only [Bool.false_eq_true, if_false]
    exact is_hidden_file_append (c :: pre') (relStr rel)

theorem mkdirNP_sub {st st' : List Entry} {p : Path}
    (h : mkdirNP st p = some st') : ∀ e ∈ st, e ∈ st' := by
  unfold mkdirNP at h
  split_ifs at h <;> injection h with h <;> subst h
  · exact fun e he => he
  · exact fun e he => he
  · exact fun e he => List.mem_append_left _ he

theorem mkdirNP_file_mem {st st' : List Entry} {p : Path}
    (h : mkdirNP st p = some st') (q : Path) :
    ((q, EKind.file) ∈ st') ↔ ((q, EKind.file) ∈ st) := by
  unfold mkdirNP at h
  split_ifs at h <;> injection h with h <;> subst h
  · exact Iff.rfl
  · exact Iff.rfl
  · simp

theorem mkdirNP_isDirAt {st st' : List Entry} {p : Path}
    (h : mkdirNP st p = some st') : isDirAt st' p = true := by
  unfold mkdirNP at h
  split_ifs at h with h1 h2 h3 h4 <;> injection h with h <;> subst h
  · simp [isDirAt, h1]
  · exact h3
  · simp [isDirAt]

theorem makedirsFrom_sub {l : List String} :
    ∀ {st st' : List Entry} {don : Path},
      makedirsFrom st don l = some st' → ∀ e ∈ st, e ∈ st' := by
  induction l with
  | nil =>
    intro st st' don h
    unfold makedirsFrom at h
    injection h with h
    subst h
    exact fun e he => he
  | cons n rest ih =>
    intro st st' don h
    unfold makedirsFrom at h
    split_ifs at h
    · exact ih h
    · exact fun e he => ih h e (List.mem_append_left _ he)

theorem makedirsFrom_file_mem {l : List String} :
    ∀ {st st' : List Entry} {don : Path},
      makedirsFrom st don l = some st' →
      ∀ q : Path, ((q, EKind.file) ∈ st') ↔ ((q, EKind.file) ∈ st) := by
  induction l with
  | nil =>
    intro st st' don h q
    unfold makedirsFrom at h
    injection h with h
    subst h
    exact Iff.rfl
  | cons n rest ih =>
    intro st st' don h q
    unfold makedirsFrom at h
    split_ifs at h
    · exact ih h q
    · rw [ih h q]
      simp

theorem makedirsFrom_isDirAt {l : List String} :
    ∀ {st st' : List Entry} {don : Path},
      makedirsFrom st don l = some st' → isDirAt st don = true →
      isDirAt st' (don ++ l) = true := by
  induction l with
  | nil =>
    intro st st' don h hd
    unfold makedirsFrom at h
    injection h with h
    subst h
    simpa using hd
  | cons n rest ih =>
    intro st st' don h hd
    unfold makedirsFrom at h
    split_ifs at h with h1 h2
    · have := ih h h2
      simpa using this
    · have hmem : isDirAt (st ++ [(don ++ [n], EKind.dir)]) (don ++ [n]) = true := by
        simp [isDirAt]
      have := ih h hmem
      simpa using this

theorem makedirs_sub {st st' : List Entry} {p : Path}
    (h : makedirs st p = some st') : ∀ e ∈ st, e ∈ st' :=
  makedirsFrom_sub h

theorem makedirs_file_mem {st st' : List Entry} {p : Path}
    (h : makedirs st p = some st') (q : Path) :
    ((q, EKind.file) ∈ st') ↔ ((q, EKind.file) ∈ st) :=
  makedirsFrom_file_mem h q

theorem makedirs_isDirAt {st st' : List Entry} {p : Path}
    (h : makedirs st p = some st') : isDirAt st' p = true := by
  have := makedirsFrom_isDirAt h (by simp [isDirAt])
  simpa using this

theorem copyfileAt_sub {st st' : List Entry} {p : Path}
    (h : copyfileAt st p = some st') : ∀ e ∈ st, e ∈ st' := by
  unfold copyfileAt at h
  split_ifs at h <;> injection h with h <;> subst h
  · exact fun e he => he
  · exact fun e he => List.mem_append_left _ he

theorem copyfileAt_file_mem {st st' : List Entry} {p : Path}
    (h : copyfileAt st p = some st') (q : Path) :
    ((q, EKind.file) ∈ st') ↔ ((q, EKind.file) ∈ st ∨ q = p) := by
  unfold copyfileAt at h
  split_ifs at h with h1 h2 h3 <;> injection h with h <;> subst h
  · constructor
    · exact fun hq => Or.inl hq
    · rintro (hq | rfl)
      · exact hq
      · simpa [isFileAt] using h3
  · simp

theorem copyfileAt_isFileAt {st st' : List Entry} {p : Path}
    (h : copyfileAt st p = some st') : isFileAt st' p = true := by
  have := copyfileAt_file_mem h p
  simp [isFileAt]
  exact this.mpr (Or.inr rfl)

/-- Everything present in the staging listing before a copytree body runs
is still present afterwards (the copy only adds entries). -/
theorem copyEntries_sub (ihf : Bool) (srcStr : List Char) (ignored : List String)
    (dst : Path) (cs : List FSO) (st : List Entry) :
    ∀ st', copyEntries ihf srcStr ignored dst cs st = some st' → ∀ e ∈ st, e ∈ st' := by
  induction srcStr, ignored, dst, cs, st using copyEntries.induct ihf with
  | case1 srcStr ignored dst st =>
    intro st' h e he
    simp only [copyEntries] at h
    injection h with h
    subst h
    exact he
  | case2 srcStr ignored dst n rest st hmem ih =>
    intro st' h e he
    simp only [copyEntries, if_pos hmem] at h
    exact ih st' h e he
  | case3 srcStr ignored dst n rest st hmem hcf =>
    intro st' h e he
    simp only [copyEntries, if_neg hmem, hcf] at h
    cases h
  | case4 srcStr ignored dst n rest st hmem st1 hcf ih =>
    intro st' h e he
    simp only [copyEntries, if_neg hmem, hcf] at h
    exact ih st' h e (copyfileAt_sub hcf e he)
  | case5 srcStr ignored dst n cc rest st hmem ih =>
    intro st' h e he
    simp only [copyEntries, if_pos hmem] at h
    exact ih st' h e he
  | case6 srcStr ignored dst n cc rest st hmem hmd =>
    intro st' h e he
    simp only [copyEntries, if_neg hmem, hmd] at h
    cases h
  | case7 srcStr ignored dst n cc rest st hmem st1 hmd hinner ihinner =>
    intro st' h e he
    simp only [dite_eq_ite] at hinner
    simp only [copyEntries, if_neg hmem, hmd, hinner] at h
    cases h
  | case8 srcStr ignored dst n cc rest st hmem st1 hmd st2 hinner ihinner ihrest =>
    intro st' h e he
    simp only [dite_eq_ite] at hinner ihinner
    simp only [copyEntries, if_neg hmem, hmd, hinner] at h
    exact ihrest st' h e (ihinner st2 hinner e (makedirs_sub hmd e he))

theorem startsWithDot_eq_false_of_not_hidden {l : List Char}
    (h : is_hidden_file l = false) : startsWithDot l = false := by
  rw [is_hidden_file] at h
  exact (Bool.or_eq_false_iff.mp h).1

theorem relHidden_append_single (dst : Path) (n : String) :
    relHidden (dst ++ [n]) = (relHidden dst || hiddenSeg n) := by
  simp [relHidden, List.any_append]

theorem mem_is_hidden_file_list_all {src : List Char} {files : List String}
    {n : String} (hsrc : is_hidden_file src = true) (hn : n ∈ files) :
    n ∈ is_hidden_file_list src files := by
  simp [is_hidden_file_list, hsrc, hn]

theorem mem_is_hidden_file_list_of_hidden {src : List Char} {files : List String}
    {n : String} (hsrc : is_hidden_file src = false) (hn : n ∈ files)
    (hh : is_hidden_file n.toList = true) : n ∈ is_hidden_file_list src files := by
  rw [is_hidden_file_list, if_neg (by simp [hsrc])]
  rw [List.mem_filter]
  exact ⟨hn, hh⟩

/-- Core invariant of the copytree body under `ignore_hidden_files = true`:
if the staging listing has no hidden file path, the source-directory string
being clean implies the destination path is clean, and the ignore list
covers everything when the source string is hidden and at least all hidden
names otherwise, then after the copy the staging listing still has no
hidden file path. -/
theorem copyEntries_filesClean (srcStr : List Char) (ignored : List String)
    (dst : Path) (cs : List FSO) (st : List Entry) :
    ∀ st', copyEntries true srcStr ignored dst cs st = some st' →
      filesClean st →
      (is_hidden_file srcStr = false → relHidden dst = false) →
      (is_hidden_file srcStr = true → ∀ c ∈ cs, fsoName c ∈ ignored) →
      (is_hidden_file srcStr = false →
        ∀ c ∈ cs, is_hidden_file (fsoName c).toList = true → fsoName c ∈ ignored) →
      filesClean st' := by
  induction srcStr, ignored, dst, cs, st using copyEntries.induct true with
  | case1 srcStr ignored dst st =>
    intro st' h hc _ _ _
    simp only [copyEntries] at h
    injection h with h
    subst h
    exact hc
  | case2 srcStr ignored dst n rest st hmem ih =>
    intro st' h hc hdst hall hhid
    simp only [copyEntries, if_pos hmem] at h
    exact ih st' h hc hdst
      (fun hs c hcm => hall hs c (List.mem_cons_of_mem _ hcm))
      (fun hs c hcm => hhid hs c (List.mem_cons_of_mem _ hcm))
  | case3 srcStr ignored dst n rest st hmem hcf =>
    intro st' h hc hdst hall hhid
    simp only [copyEntries, if_neg hmem, hcf] at h
    cases h
  | case4 srcStr ignored dst n rest st hmem st1 hcf ih =>
    intro st' h hc hdst hall hhid
    simp only [copyEntries, if_neg hmem, hcf] at h
    have hsrc : is_hidden_file srcStr = false := by
      cases hyp : is_hidden_file srcStr with
      | true => exact absurd (hall hyp (FSO.file n) (by simp) ) (by simpa [fsoName] using hmem)
      | false => rfl
    have hn : is_hidden_file n.toList = false := by
      cases hyp : is_hidden_file n.toList with
      | true =>
        exact absurd (hhid hsrc (FSO.file n) (by simp) (by simpa [fsoName] using hyp))
          (by simpa [fsoName] using hmem)
      | false => rfl
    have hclean1 : filesClean st1 := by
      intro p hp
      rcases (copyfileAt_file_mem hcf p).mp hp with hold | rfl
      · exact hc p hold
      · rw [relHidden_append_single, hdst hsrc]
        rw [hiddenSeg, startsWithDot_eq_false_of_not_hidden hn]
        rfl
    exact ih st' h hclean1 hdst
      (fun hs c hcm => hall hs c (List.mem_cons_of_mem _ hcm))
      (fun hs c hcm => hhid hs c (List.mem_cons_of_mem _ hcm))
  | case5 srcStr ignored dst n cc rest st hmem ih =>
    intro st' h hc hdst hall hhid
    simp only [copyEntries, if_pos hmem] at h
    exact ih st' h hc hdst
      (fun hs c hcm => hall hs c (List.mem_cons_of_mem _ hcm))
      (fun hs c hcm => hhid hs c (List.mem_cons_of_mem _ hcm))
  | case6 srcStr ignored dst n cc rest st hmem hmd =>
    intro st' h hc hdst hall hhid
    simp only [copyEntries, if_neg hmem, hmd] at h
    cases h
  | case7 srcStr ignored dst n cc rest st hmem st1 hmd hinner ihinner =>
    intro st' h hc hdst hall hhid
    simp only [dite_eq_ite] at hinner
    simp only [copyEntries, if_neg hmem, hmd, hinner] at h
    cases h
  | case8 srcStr ignored dst n cc rest st hmem st1 hmd st2 hinner ihinner ihrest =>
    intro st' h hc hdst hall hhid
    simp only [dite_eq_ite] at hinner ihinner
    simp only [copyEntries, if_neg hmem, hmd, hinner] at h
    have hsrc : is_hidden_file srcStr = false := by
      cases hyp : is_hidden_file srcStr with
      | true => exact absurd (hall hyp (FSO.dir n cc) (by simp)) (by simpa [fsoName] using hmem)
      | false => rfl
    have hn : is_hidden_file n.toList = false := by
      cases hyp : is_hidden_file n.toList with
      | true =>
        exact absurd (hhid hsrc (FSO.dir n cc) (by simp) (by simpa [fsoName] using hyp))
          (by simpa [fsoName] using hmem)
      | false => rfl
    have hsrc2 : is_hidden_file (srcStr ++ '/' :: n.toList) = false := by
      rw [is_hidden_file_append, hsrc, hn]
      rfl
    have hdst2 : relHidden (dst ++ [n]) = false := by
      rw [relHidden_append_single, hdst hsrc]
      rw [hiddenSeg, startsWithDot_eq_false_of_not_hidden hn]
      rfl
    have hclean1 : filesClean st1 := by
      intro p hp
      exact hc p ((makedirs_file_mem hmd p).mp hp)
    have hclean2 : filesClean st2 := by
      refine ihinner st2 hinner hclean1 (fun _ => hdst2) ?_ ?_
      · intro hs
        rw [hsrc2] at hs
        cases hs
      · intro _ c hcm hch
        simp only [if_true]
        exact mem_is_hidden_file_list_of_hidden hsrc2 (List.mem_map_of_mem fsoName hcm) hch
    exact ihrest st' h hclean2 hdst
      (fun hs c hcm => hall hs c (List.mem_cons_of_mem _ hcm))
      (fun hs c hcm => hhid hs c (List.mem_cons_of_mem _ hcm))

theorem relHidden_eq_false_of_relStr_not_hidden {rel : Path}
    (h : is_hidden_file (relStr rel) = false) : relHidden rel = false := by
  cases hyp : relHidden rel with
  | true =>
    rw [is_hidden_file_relStr_of_relHidden rel hyp] at h
    cases h
  | false => rfl

/-- Processing one matched object under `ignore_hidden_files = true`
preserves cleanliness of the staged regular-file paths. -/
theorem copyObject_filesClean (pre : List Char) (project : List FSO) (st : List Entry)
    (rel : Path) (st' : List Entry)
    (h : copyObject true pre project st rel = some st') (hc : filesClean st) :
    filesClean st' := by
  unfold copyObject at h
  split at h
  next nm heq =>
    split at h
    next hmk => cases h
    next st1 hmk =>
      have hclean1 : filesClean st1 := fun p hp => hc p ((mkdirNP_file_mem hmk p).mp hp)
      split_ifs at h with hcond
      · injection h with h
        subst h
        exact hclean1
      · have hhb : is_hidden_file (relStr rel) = false := by
          cases hyp : is_hidden_file (relStr rel) with
          | true => exact absurd (by simp [hyp]) hcond
          | false => rfl
        have hrel : relHidden rel = false := relHidden_eq_false_of_relStr_not_hidden hhb
        intro p hp
        rcases (copyfileAt_file_mem h p).mp hp with hold | rfl
        · exact hclean1 p hold
        · exact hrel
  next nm cc heq =>
    split at h
    next hmd => cases h
    next st1 hmd =>
      simp only [if_true] at h
      refine copyEntries_filesClean _ _ _ _ _ st' h
        (fun p hp => hc p ((makedirs_file_mem hmd p).mp hp)) ?_ ?_ ?_
      · intro hs
        rw [is_hidden_file_objStr] at hs
        exact relHidden_eq_false_of_relStr_not_hidden (Bool.or_eq_false_iff.mp hs).2
      · intro hs c hcm
        exact mem_is_hidden_file_list_all hs (List.mem_map_of_mem fsoName hcm)
      · intro hs c hcm hch
        exact mem_is_hidden_file_list_of_hidden hs (List.mem_map_of_mem fsoName hcm) hch
  next heq =>
    injection h with h
    subst h
    exact hc

/-- The whole copy phase under `ignore_hidden_files = true` preserves
cleanliness of the staged regular-file paths. -/
theorem copy_source_files_filesClean (pre : List Char) (project : List FSO) :
    ∀ (matched : List Path) (st st' : List Entry),
      copy_source_files true pre project matched st = some st' →
      filesClean st → filesClean st' := by
  intro matched
  induction matched with
  | nil =>
    intro st st' h hc
    unfold copy_source_files at h
    injection h with h
    subst h
    exact hc
  | cons r rs ih =>
    intro st st' h hc
    unfold copy_source_files at h
    cases hco : copyObject true pre project st r with
    | none => rw [hco] at h; cases h
    | some st1 =>
      rw [hco] at h
      exact ih st1 st' h (copyObject_filesClean pre project st r st1 hco hc)

theorem isDirAt_mono {st st' : List Entry} {p : Path}
    (hsub : ∀ e ∈ st, e ∈ st') (h : isDirAt st p = true) : isDirAt st' p = true := by
  unfold isDirAt at h ⊢
  cases hp : p.isEmpty with
  | true => simp [hp]
  | false =>
    rw [hp] at h
    simp only [Bool.false_or] at h
    have := hsub _ (of_decide_eq_true h)
    simp [this]

theorem isFileAt_mono {st st' : List Entry} {p : Path}
    (hsub : ∀ e ∈ st, e ∈ st') (h : isFileAt st p = true) : isFileAt st' p = true := by
  unfold isFileAt at h ⊢
  have := hsub _ (of_decide_eq_true h)
  simp [this]

theorem copyObject_sub {ihf : Bool} {pre : List Char} {project : List FSO}
    {st : List Entry} {rel : Path} {st' : List Entry}
    (h : copyObject ihf pre project st rel = some st') : ∀ e ∈ st, e ∈ st' := by
  unfold copyObject at h
  split at h
  next nm heq =>
    split at h
    next hmk => cases h
    next st1 hmk =>
      split_ifs at h with hcond
      · injection h with h
        subst h
        exact mkdirNP_sub hmk
      · exact fun e he => copyfileAt_sub h e (mkdirNP_sub hmk e he)
  next nm cc heq =>
    split at h
    next hmd => cases h
    next st1 hmd =>
      exact fun e he => copyEntries_sub ihf _ _ _ _ _ st' h e (makedirs_sub hmd e he)
  next heq =>
    injection h with h
    subst h
    exact fun e he => he

theorem copy_source_files_sub {ihf : Bool} {pre : List Char} {project : List FSO} :
    ∀ {matched : List Path} {st st' : List Entry},
      copy_source_files ihf pre project matched st = some st' → ∀ e ∈ st, e ∈ st' := by
  intro matched
  induction matched with
  | nil =>
    intro st st' h
    unfold copy_source_files at h
    injection h with h
    subst h
    exact fun e he => he
  | cons r rs ih =>
    intro st st' h
    unfold copy_source_files at h
    split at h
    next hco => cases h
    next st1 hco => exact fun e he => ih h e (copyObject_sub hco e he)

/-- A matched regular file copied with filtering off ends up in staging. -/
theorem copyObject_file_present {pre : List Char} {project : List FSO}
    {st : List Entry} {rel : Path} {st' : List Entry} {nm : String}
    (h : copyObject false pre project st rel = some st')
    (hlk : lookupFSO project rel = some (FSO.file nm)) :
    isFileAt st' rel = true := by
  unfold copyObject at h
  split at h
  next nm2 heq =>
    split at h
    next hmk => cases h
    next st1 hmk =>
      split_ifs at h with hcond
      · simp at hcond
      · exact copyfileAt_isFileAt h
  next nm2 cc heq =>
    rw [hlk] at heq
    cases heq
  next heq =>
    rw [hlk] at heq
    cases heq

/-- A matched directory ends up in staging (its destination is created by
`os.makedirs` before the children are walked). -/
theorem copyObject_dir_present {pre : List Char} {project : List FSO}
    {st : List Entry} {rel : Path} {st' : List Entry} {nm : String} {cc : List FSO}
    (h : copyObject false pre project st rel = some st')
    (hlk : lookupFSO project rel = some (FSO.dir nm cc)) :
    isDirAt st' rel = true := by
  unfold copyObject at h
  split at h
  next nm2 heq =>
    rw [hlk] at heq
    cases heq
  next nm2 cc2 heq =>
    split at h
    next hmd => cases h
    next st1 hmd =>
      exact isDirAt_mono (copyEntries_sub false _ _ _ _ _ st' h) (makedirs_isDirAt hmd)
  next heq =>
    rw [hlk] at heq
    cases heq

/-- With `ignore_hidden_files = false` and a successful copy phase, every
matched object that resolves in the project tree is present in the final
staging listing at its project-relative path, with its kind. -/
theorem copy_source_files_present (pre : List Char) (project : List FSO) :
    ∀ (matched : List Path) (st st' : List Entry),
      copy_source_files false pre project matched st = some st' →
      ∀ rel ∈ matched,
        (∀ nm, lookupFSO project rel = some (FSO.file nm) → isFileAt st' rel = true) ∧
        (∀ nm cc, lookupFSO project rel = some (FSO.dir nm cc) → isDirAt st' rel = true) := by
  intro matched
  induction matched with
  | nil =>
    intro st st' h rel hrel
    cases hrel
  | cons r rs ih =>
    intro st st' h rel hrel
    unfold copy_source_files at h
    split at h
    next hco => cases h
    next st1 hco =>
      rcases List.mem_cons.mp hrel with rfl | hmem
      · constructor
        · intro nm hlk
          exact isFileAt_mono (copy_source_files_sub h) (copyObject_file_present hco hlk)
        · intro nm cc hlk
          exact isDirAt_mono (copy_source_files_sub h) (copyObject_dir_present hco hlk)
      · exact ih st1 st' h rel hmem

/-- `Path.mkdir(exist_ok=True)` succeeds when the target's parent directory
exists and the target is not an existing regular file; it creates at most
the one final level. -/
theorem mkdirNP_succeeds {st : List Entry} {p : Path}
    (hgp : isDirAt st p.dropLast = true) (hpf : isFileAt st p = false) :
    ∃ st1, mkdirNP st p = some st1 ∧ isDirAt st1 p = true ∧
      (∀ e ∈ st, e ∈ st1) ∧ (∀ q, isFileAt st1 q = isFileAt st q) ∧
      (∀ q, q ≠ p → isDirAt st1 q = isDirAt st q) := by
  unfold mkdirNP
  by_cases hpe : p.isEmpty
  · refine ⟨st, by rw [if_pos hpe], by simp [isDirAt, hpe], fun e he => he,
      fun q => rfl, fun q _ => rfl⟩
  · rw [if_neg hpe, hpf]
    simp only [Bool.false_eq_true, if_false]
    by_cases hdir : isDirAt st p = true
    · exact ⟨st, by rw [if_pos hdir], hdir, fun e he => he, fun q => rfl, fun q _ => rfl⟩
    · rw [if_neg hdir, if_pos hgp]
      refine ⟨st ++ [(p, EKind.dir)], rfl, by simp [isDirAt], fun e he => List.mem_append_left _ he,
        ?_, ?_⟩
      · intro q
        unfold isFileAt
        simp
      · intro q hq
        unfold isDirAt
        simp [hq]

/-- `shutil.copyfile` succeeds when the destination's parent directory
exists and the destination is not an existing directory. -/
theorem copyfileAt_succeeds {st : List Entry} {p : Path}
    (hd : isDirAt st p = false) (hparent : isDirAt st p.dropLast = true) :
    ∃ st', copyfileAt st p = some st' ∧ isFileAt st' p = true := by
  unfold copyfileAt
  rw [hd]
  simp only [Bool.false_eq_true, if_false, if_pos hparent]
  refine ⟨_, rfl, ?_⟩
  by_cases hf : isFileAt st p = true
  · rw [if_pos hf]
    exact hf
  · rw [if_neg hf]
    unfold isFileAt
    simp

theorem mem_is_hidden_file_list_iff {src : List Char} {files : List String}
    {n : String} (hn : n ∈ files) :
    n ∈ is_hidden_file_list src files ↔
      (is_hidden_file src || is_hidden_file n.toList) = true := by
  unfold is_hidden_file_list
  by_cases hs : is_hidden_file src = true
  · simp [hs, hn]
  · have hs' : is_hidden_file src = false := by
      cases hyp : is_hidden_file src with
      | true => exact absurd hyp hs
      | false => rfl
    rw [if_neg hs, List.mem_filter]
    simp [hs', hn]

theorem treeSkips_of_hidden {s : List Char} (hs : is_hidden_file s = true) :
    ∀ {inner : List String}, inner ≠ [] → treeSkips s inner = true := by
  intro inner hne
  cases inner with
  | nil => exact absurd rfl hne
  | cons n rest =>
    unfold treeSkips
    rw [hs]
    rfl

theorem treeSkips_of_clean :
    ∀ {inner : List String} {s : List Char}, is_hidden_file s = false →
      (∀ n ∈ inner, '/' ∉ n.toList) → treeSkips s inner = relHidden inner := by
  intro inner
  induction inner with
  | nil => intro s _ _; rfl
  | cons n rest ih =>
    intro s hs hnames
    unfold treeSkips
    rw [hs]
    have hnoslash : '/' ∉ n.toList := hnames n (by simp)
    rw [is_hidden_file_eq_startsWithDot n.toList hnoslash]
    cases hn : startsWithDot n.toList with
    | true =>
      have hseg : hiddenSeg n = true := hn
      have h2 : relHidden (n :: rest) = true := by
        rw [relHidden, List.any_cons, hseg, Bool.true_or]
      rw [h2]
      rfl
    | false =>
      have hs2 : is_hidden_file (s ++ '/' :: n.toList) = false := by
        rw [is_hidden_file_append, hs, is_hidden_file_eq_startsWithDot n.toList hnoslash, hn]
        rfl
      have hseg : hiddenSeg n = false := hn
      rw [ih hs2 (fun m hm => hnames m (List.mem_cons_of_mem n hm))]
      simp only [relHidden, List.any_cons, hseg, Bool.false_or, Bool.or_false]

theorem lookupFSO_nil (cs : List FSO) : lookupFSO cs [] = none := rfl

theorem mkdirNP_of_exists {st : List Entry} {p : Path}
    (hd : isDirAt st p = true) (hf : isFileAt st p = false) :
    mkdirNP st p = some st := by
  unfold mkdirNP
  by_cases hpe : p.isEmpty
  · rw [if_pos hpe]
  · rw [if_neg hpe, hf]
    simp only [Bool.false_eq_true, if_false]
    rw [if_pos hd]

/-- C9: for every relative path string, `_is_hidden_file` returns true if
and only if some slash-separated segment of the string starts with a dot,
including the final component.  CONFIRMED. -/
theorem C9_is_hidden_file_iff_segment (name : List Char) :
    is_hidden_file name = true ↔ ∃ seg ∈ splitOnSlash name, startsWithDot seg = true := by
  rw [is_hidden_file_eq_any_segment]
  exact List.any_eq_true

/-- C1 counterexample: `ignore_hidden_files = true`, project containing the
hidden directory `.d` (with a file inside), matched set `{.d}` — as
produced e.g. by the pattern `.*`.  The copy phase succeeds: the callback
sees the hidden source string, ignores all children, but
`shutil.copytree` has already created the destination directory itself, so
the staging area — and hence the archive, since `shutil.make_archive`
records directories (including empty ones) as members — contains the path
`.d`, whose single segment starts with a dot.  This refutes "the archive
contains no path whose name has a segment starting with a dot". -/
theorem C1_counterexample :
    copy_source_files true [] [FSO.dir ".d" [FSO.file "x.py"]] [[".d"]] []
      = some [([".d"], EKind.dir)] ∧ relHidden [".d"] = true := by
  constructor
  · simp [copy_source_files, copyObject, copyEntries, lookupFSO, findChild, fsoName,
      makedirs, makedirsFrom, mkdirNP, copyfileAt, isFileAt, isDirAt,
      is_hidden_file_list, is_hidden_file, startsWithDot, containsSlashDot, objStr, relStr]
  · decide

/-- C1 amended: with `ignore_hidden_files = true`, no REGULAR FILE whose
staging path has a dot-segment is ever staged (for any project tree, any
matched list, and any initial staging content whose file paths are clean),
hence no such file is in the archive; hidden directories, however, can
appear in the archive as (empty) directory members — see the
counterexample. -/
theorem C1_amended (pre : List Char) (project : List FSO) (matched : List Path)
    (st0 st' : List Entry) (h0 : filesClean st0)
    (h : copy_source_files true pre project matched st0 = some st') :
    filesClean st' :=
  copy_source_files_filesClean pre project matched st0 st' h h0

theorem C1_amended_witness :
    filesClean ([] : List Entry) ∧
      copy_source_files true [] [FSO.dir "s" [FSO.file ".env", FSO.file "a.py"]]
        [["s"]] [] = some [(["s"], EKind.dir), (["s", "a.py"], EKind.file)] ∧
      filesClean [(["s"], EKind.dir), (["s", "a.py"], EKind.file)] := by
  have h0 : filesClean ([] : List Entry) := by
    intro p hp
    cases hp
  have hcopy : copy_source_files true [] [FSO.dir "s" [FSO.file ".env", FSO.file "a.py"]]
      [["s"]] [] = some [(["s"], EKind.dir), (["s", "a.py"], EKind.file)] := by
    simp [copy_source_files, copyObject, copyEntries, lookupFSO, findChild, fsoName,
      makedirs, makedirsFrom, mkdirNP, copyfileAt, isFileAt, isDirAt,
      is_hidden_file_list, is_hidden_file, startsWithDot, containsSlashDot, objStr, relStr]
  exact ⟨h0, hcopy,
    C1_amended [] [FSO.dir "s" [FSO.file ".env", FSO.file "a.py"]] [["s"]] [] _ h0 hcopy⟩

/-- C2 counterexample: take a project directory whose own path string
contains a hidden segment, e.g. `.p` (a project under a hidden folder),
with matched directory `s` containing the file `a.py`.  Reached directly,
the file's project-relative path string `s/a.py` is not hidden, so the
single-file check copies it; reached through the matched directory, the
copytree callback receives `str(object) = ".p/s"`, which `_is_hidden_file`
classifies as hidden, so the entire listing — `a.py` included — is
ignored.  The two code paths do NOT decide identically. -/
theorem C2_counterexample :
    treeSkips (objStr ['.', 'p'] ["s"]) ["a.py"] = true ∧
      is_hidden_file (relStr (["s"] ++ ["a.py"])) = false := by
  constructor
  · decide
  · decide

/-- C2 amended: PROVIDED the project directory's own path string has no
hidden segment, the two checks agree: for every entry reachable both via a
direct match (relative path `d ++ inner`) and via the copy filter while
copying matched directory `d` (crossing the names `inner`), the cumulative
filter decision equals the single-file hidden check on the relative path
string (segment names are listing names, hence contain no separator). -/
theorem C2_amended (pre : List Char) (d inner : List String)
    (hpre : is_hidden_file pre = false) (hinner : inner ≠ [])
    (hnames : ∀ n ∈ d ++ inner, '/' ∉ n.toList) :
    treeSkips (objStr pre d) inner = is_hidden_file (relStr (d ++ inner)) := by
  have hd : ∀ n ∈ d, '/' ∉ n.toList := fun n hn => hnames n (List.mem_append_left _ hn)
  have hi : ∀ n ∈ inner, '/' ∉ n.toList := fun n hn => hnames n (List.mem_append_right _ hn)
  rw [is_hidden_file_relStr (d ++ inner) hnames]
  cases hrd : relHidden d with
  | true =>
    have hobj : is_hidden_file (objStr pre d) = true := by
      rw [is_hidden_file_objStr, is_hidden_file_relStr d hd, hrd]
      simp
    rw [treeSkips_of_hidden hobj hinner]
    have h2 : relHidden (d ++ inner) = true := by
      rw [relHidden, List.any_append]
      rw [show d.any hiddenSeg = true from hrd]
      rfl
    rw [h2]
  | false =>
    have hobj : is_hidden_file (objStr pre d) = false := by
      rw [is_hidden_file_objStr, is_hidden_file_relStr d hd, hrd, hpre]
      rfl
    rw [treeSkips_of_clean hobj hi]
    show inner.any hiddenSeg = (d ++ inner).any hiddenSeg
    rw [List.any_append, show d.any hiddenSeg = false from hrd, Bool.false_or]

theorem C2_amended_witness :
    is_hidden_file [] = false ∧ (["a.py"] : List String) ≠ [] ∧
      (∀ n ∈ (["s"] ++ ["a.py"] : List String), '/' ∉ n.toList) ∧
      treeSkips (objStr [] ["s"]) ["a.py"] = is_hidden_file (relStr (["s"] ++ ["a.py"])) := by
  refine ⟨rfl, by simp, by decide, ?_⟩
  exact C2_amended [] ["s"] ["a.py"] rfl (by simp) (by decide)

/-- C3 counterexample: the matched regular file `a/b/c.py` (its ancestors
not matched, staging empty): `_copy_source_files` runs
`new_location.parent.mkdir(exist_ok=True)` — without `parents=True` — so
creating `a/b` fails with `FileNotFoundError` because `a` does not exist;
the pipeline aborts instead of copying.  This refutes "creating any
missing intermediate directories along that relative path as needed (so a
matched regular file nested at any depth is copied successfully even when
none of its ancestor directories exist yet in the staging area)". -/
theorem C3_counterexample :
    copy_source_files false [] [FSO.dir "a" [FSO.dir "b" [FSO.file "c.py"]]]
      [["a", "b", "c.py"]] [] = none ∧
    lookupFSO [FSO.dir "a" [FSO.dir "b" [FSO.file "c.py"]]] ["a", "b", "c.py"]
      = some (FSO.file "c.py") := by
  constructor
  · simp [copy_source_files, copyObject, lookupFSO, findChild, fsoName, mkdirNP,
      isFileAt, isDirAt]
  · simp [lookupFSO, findChild, fsoName]

/-- C3 amended: the copier creates at most ONE missing directory level (the
immediate parent: `mkdir(exist_ok=True)` without `parents=True`).  A
matched regular file is therefore copied to its project-relative staging
path whenever every ancestor above the immediate parent already exists in
the staging area (the parent itself being created if missing); with deeper
ancestors missing the copy phase fails — see the counterexample.  Matched
directories are unaffected (`copytree` uses `os.makedirs`). -/
theorem C3_amended (pre : List Char) (project : List FSO) (st : List Entry)
    (rel : Path) (nm : String)
    (hlk : lookupFSO project rel = some (FSO.file nm))
    (hgp : isDirAt st (rel.dropLast.dropLast) = true)
    (hpf : isFileAt st rel.dropLast = false)
    (hrd : isDirAt st rel = false) :
    ∃ st', copyObject false pre project st rel = some st' ∧ isFileAt st' rel = true := by
  have hrelne : rel ≠ [] := by
    rintro rfl
    rw [lookupFSO_nil] at hlk
    cases hlk
  obtain ⟨st1, hmk, hdir1, hsub1, hfe1, hde1⟩ := mkdirNP_succeeds hgp hpf
  have hne : rel ≠ rel.dropLast := by
    intro he
    have h1 := congrArg List.length he
    rw [List.length_dropLast] at h1
    have h2 : rel.length ≠ 0 := fun hz => hrelne (List.length_eq_zero.mp hz)
    omega
  have hrd1 : isDirAt st1 rel = false := by
    rw [hde1 rel hne]
    exact hrd
  obtain ⟨st2, hcf, hf2⟩ := copyfileAt_succeeds hrd1 hdir1
  refine ⟨st2, ?_, hf2⟩
  unfold copyObject
  rw [hlk]
  simp only [hmk, Bool.false_and, Bool.false_eq_true, if_false]
  exact hcf

theorem C3_amended_witness :
    lookupFSO [FSO.file "a.py"] ["a.py"] = some (FSO.file "a.py") ∧
      isDirAt [] ((["a.py"] : Path).dropLast.dropLast) = true ∧
      isFileAt [] ((["a.py"] : Path).dropLast) = false ∧
      isDirAt [] (["a.py"] : Path) = false ∧
      isFileAt [(["a.py"], EKind.file)] ["a.py"] = true := by
  refine ⟨by simp [lookupFSO, findChild, fsoName], by decide, by decide, by decide, ?_⟩
  obtain ⟨st', heq, hf⟩ := C3_amended [] [FSO.file "a.py"] [] ["a.py"] "a.py"
    (by simp [lookupFSO, findChild, fsoName]) (by decide) (by decide) (by decide)
  have hc : copyObject false [] [FSO.file "a.py"] [] ["a.py"]
      = some [(["a.py"], EKind.file)] := by
    simp [copyObject, lookupFSO, findChild, fsoName, mkdirNP, copyfileAt, isFileAt, isDirAt]
  rw [heq] at hc
  injection hc with hc
  rw [← hc]
  exact hf

/-- C10: when a matched regular file is skipped by the hidden-file filter
(`ignore_hidden_files = true` and the relative path string is hidden), the
mkdir of its destination parent has already run — package.py line 93
precedes the check at lines 95-98 — so the parent directory is present in
the resulting staging listing (and hence in the archive, which records
directory members), while the set of staged regular files is unchanged.
CONFIRMED. -/
theorem C10_parent_dir_created_despite_skip (pre : List Char) (project : List FSO)
    (st st' : List Entry) (rel : Path) (nm : String)
    (hlk : lookupFSO project rel = some (FSO.file nm))
    (hh : is_hidden_file (relStr rel) = true)
    (h : copyObject true pre project st rel = some st') :
    isDirAt st' rel.dropLast = true ∧ ∀ q, isFileAt st' q = isFileAt st q := by
  unfold copyObject at h
  split at h
  next nm2 heq =>
    split at h
    next hmk => cases h
    next st1 hmk =>
      split_ifs at h with hcond
      · injection h with h
        subst h
        refine ⟨mkdirNP_isDirAt hmk, fun q => ?_⟩
        unfold isFileAt
        exact decide_eq_decide.mpr (mkdirNP_file_mem hmk q)
      · exact absurd (by simp [hh]) hcond
  next nm2 cc heq =>
    rw [hlk] at heq
    cases heq
  next heq =>
    rw [hlk] at heq
    cases heq

theorem C10_witness :
    lookupFSO [FSO.dir "s" [FSO.file ".env"]] ["s", ".env"] = some (FSO.file ".env") ∧
      is_hidden_file (relStr ["s", ".env"]) = true ∧
      copyObject true [] [FSO.dir "s" [FSO.file ".env"]] [] ["s", ".env"]
        = some [(["s"], EKind.dir)] ∧
      isDirAt [(["s"], EKind.dir)] ((["s", ".env"] : Path).dropLast) = true ∧
      isFileAt [(["s"], EKind.dir)] ["s", ".env"] = isFileAt [] ["s", ".env"] := by
  have hlk : lookupFSO [FSO.dir "s" [FSO.file ".env"]] ["s", ".env"]
      = some (FSO.file ".env") := by
    simp [lookupFSO, findChild, fsoName]
  have hh : is_hidden_file (relStr ["s", ".env"]) = true := by decide
  have hco : copyObject true [] [FSO.dir "s" [FSO.file ".env"]] [] ["s", ".env"]
      = some [(["s"], EKind.dir)] := by
    simp [copyObject, lookupFSO, findChild, fsoName, mkdirNP, copyfileAt,
      isFileAt, isDirAt, is_hidden_file, startsWithDot, containsSlashDot, relStr]
  have hmain := C10_parent_dir_created_despite_skip [] [FSO.dir "s" [FSO.file ".env"]]
    [] [(["s"], EKind.dir)] ["s", ".env"] ".env" hlk hh hco
  exact ⟨hlk, hh, hco, hmain.1, hmain.2 ["s", ".env"]⟩

/-- C8 counterexample: `ignore_hidden_files = false`, a hidden-free project
whose only matched object is the regular file `u/v/w.py` at depth three,
staging initially empty.  The copy phase fails (the single-level
`mkdir(exist_ok=True)` cannot create `u/v`), the exception propagates out
of `execute` before `_create_zip_file` runs, so no archive is produced at
all — the matched file appears in no archive, refuting "every matched file
... appears in the produced archive at its project-relative path". -/
theorem C8_counterexample :
    copy_source_files false [] [FSO.dir "u" [FSO.dir "v" [FSO.file "w.py"]]]
      [["u", "v", "w.py"]] [] = none ∧
    lookupFSO [FSO.dir "u" [FSO.dir "v" [FSO.file "w.py"]]] ["u", "v", "w.py"]
      = some (FSO.file "w.py") := by
  constructor
  · simp [copy_source_files, copyObject, lookupFSO, findChild, fsoName, mkdirNP,
      isFileAt, isDirAt]
  · simp [lookupFSO, findChild, fsoName]

/-- C8 amended: with `ignore_hidden_files = false`, WHENEVER the copy phase
completes (it can fail: see the counterexample), every matched object that
resolves in the project tree — hidden or not, at any depth — is present in
the final staging listing (and hence in the archive) at its
project-relative path, as a regular file resp. a directory. -/
theorem C8_amended (pre : List Char) (project : List FSO) (matched : List Path)
    (st0 st' : List Entry)
    (h : copy_source_files false pre project matched st0 = some st') :
    ∀ rel ∈ matched,
      (∀ nm, lookupFSO project rel = some (FSO.file nm) → isFileAt st' rel = true) ∧
      (∀ nm cc, lookupFSO project rel = some (FSO.dir nm cc) → isDirAt st' rel = true) :=
  copy_source_files_present pre project matched st0 st' h

theorem C8_amended_witness :
    copy_source_files false [] [FSO.file "b.py"] [["b.py"]] []
      = some [(["b.py"], EKind.file)] ∧
    isFileAt [(["b.py"], EKind.file)] ["b.py"] = true := by
  have hcopy : copy_source_files false [] [FSO.file "b.py"] [["b.py"]] []
      = some [(["b.py"], EKind.file)] := by
    simp [copy_source_files, copyObject, lookupFSO, findChild, fsoName, mkdirNP,
      copyfileAt, isFileAt, isDirAt]
  refine ⟨hcopy, ?_⟩
  exact (C8_amended [] [FSO.file "b.py"] [["b.py"]] [] _ hcopy ["b.py"] (by simp)).1
    "b.py" (by simp [lookupFSO, findChild, fsoName])

/-- C4: when a plain requirements file exists at the project root, the
pipeline uses it exclusively, whatever the poetry detection would say: the
poetry export is never invoked, the installer is invoked with the no-deps
flag unset, and the assembled pip command line carries no `--no-deps`
switch (transitive resolution allowed).  CONFIRMED. -/
theorem C4_requirements_priority (poetryUsed exportOk : Bool) (deps : List Entry)
    (ihf : Bool) (pre : List Char) (project : List FSO) (matched : List Path) :
    Event.exportCall ∉
      (executeModel true poetryUsed exportOk deps ihf pre project matched).events ∧
    Event.installCall true ∉
      (executeModel true poetryUsed exportOk deps ihf pre project matched).events ∧
    Event.installCall false ∈
      (executeModel true poetryUsed exportOk deps ihf pre project matched).events ∧
    ∀ cmd, install_requirements_txt true "requirements.txt" "tmp" false = some cmd →
      "--no-deps" ∉ cmd := by
  have hrun : executeModel true poetryUsed exportOk deps ihf pre project matched =
      runCopyPhase [Event.installCall false]
        (copy_source_files ihf pre project matched deps) := by
    unfold executeModel
    simp [install_requirements_txt]
  refine ⟨?_, ?_, ?_, ?_⟩
  · rw [hrun]
    cases hc : copy_source_files ihf pre project matched deps <;> simp [runCopyPhase]
  · rw [hrun]
    cases hc : copy_source_files ihf pre project matched deps <;> simp [runCopyPhase]
  · rw [hrun]
    cases hc : copy_source_files ihf pre project matched deps <;> simp [runCopyPhase]
  · intro cmd hcmd
    rw [install_requirements_txt, if_pos rfl] at hcmd
    injection hcmd with hcmd
    rw [← hcmd]
    decide

/-- C6: the Requirement Installer raises its validation error exactly when
the given requirements file is not a regular file, and then no pip command
line is ever assembled (no subprocess).  In the pipeline this arises on the
poetry path when the export leaves no file: the run aborts right after the
export, before the installer subprocess and before `_copy_source_files`
touches any source file.  CONFIRMED. -/
theorem C6_missing_requirements_aborts (reqPath target : String) (noDeps : Bool)
    (deps : List Entry) (ihf : Bool) (pre : List Char) (project : List FSO)
    (matched : List Path) :
    (∀ b, install_requirements_txt b reqPath target noDeps = none ↔ b = false) ∧
    (executeModel false true false deps ihf pre project matched).events
      = [Event.exportCall] ∧
    (∀ b, Event.installCall b ∉
      (executeModel false true false deps ihf pre project matched).events) ∧
    Event.copySources ∉
      (executeModel false true false deps ihf pre project matched).events ∧
    (executeModel false true false deps ihf pre project matched).staged = none := by
  have hexec : executeModel false true false deps ihf pre project matched
      = ⟨[Event.exportCall], none⟩ := by
    unfold executeModel
    simp [install_requirements_txt]
  refine ⟨?_, ?_, ?_, ?_, ?_⟩
  · intro b
    cases b <;> simp [install_requirements_txt]
  · rw [hexec]
  · intro b
    rw [hexec]
    simp
  · rw [hexec]
    simp
  · rw [hexec]

/-- C7 amended: with neither a requirements file nor poetry detected,
dependency installation is skipped with a warning — this itself is not a
failure: no installer call, no export, and the copy phase proceeds on an
EMPTY staging directory, so the final staging listing (the archive
contents) is exactly the output of copying the matched source files,
independent of any dependency listing, and whenever the copy phase
completes the zip step runs and the archive is produced.  The run as a
whole, however, is NOT guaranteed to complete: the copy phase itself can
still fail (single-level `mkdir`, see the counterexample), and then no
archive is produced. -/
theorem C7_no_dependency_source (exportOk : Bool) (deps : List Entry) (ihf : Bool)
    (pre : List Char) (project : List FSO) (matched : List Path) :
    Event.warnNoDeps ∈
      (executeModel false false exportOk deps ihf pre project matched).events ∧
    (∀ b, Event.installCall b ∉
      (executeModel false false exportOk deps ihf pre project matched).events) ∧
    Event.exportCall ∉
      (executeModel false false exportOk deps ihf pre project matched).events ∧
    Event.copySources ∈
      (executeModel false false exportOk deps ihf pre project matched).events ∧
    (executeModel false false exportOk deps ihf pre project matched).staged
      = copy_source_files ihf pre project matched [] ∧
    (∀ st', copy_source_files ihf pre project matched [] = some st' →
      Event.createZip ∈
        (executeModel false false exportOk deps ihf pre project matched).events) := by
  have hexec : executeModel false false exportOk deps ihf pre project matched =
      runCopyPhase [Event.warnNoDeps] (copy_source_files ihf pre project matched []) := by
    unfold executeModel
    simp
  refine ⟨?_, ?_, ?_, ?_, ?_, ?_⟩
  · rw [hexec]
    cases hc : copy_source_files ihf pre project matched [] <;> simp [runCopyPhase]
  · intro b
    rw [hexec]
    cases hc : copy_source_files ihf pre project matched [] <;> simp [runCopyPhase]
  · rw [hexec]
    cases hc : copy_source_files ihf pre project matched [] <;> simp [runCopyPhase]
  · rw [hexec]
    cases hc : copy_source_files ihf pre project matched [] <;> simp [runCopyPhase]
  · rw [hexec]
    cases hc : copy_source_files ihf pre project matched [] <;> simp [runCopyPhase, hc]
  · intro st' hc
    rw [hexec, hc]
    simp [runCopyPhase]

/-- C5 counterexample: the target `a/b/c.zip` carries the right extension,
but with an empty output area `Path(target).parent.mkdir(exist_ok=True)` —
no `parents=True` — fails with `FileNotFoundError` (`a` does not exist):
no parent directory is created and no archive is written, refuting "when
the extension is valid, it creates the missing parent output directory and
overwrites any pre-existing archive at the target path" as a statement
about every target path. -/
theorem C5_counterexample :
    endsWithZip (relStr ["a", "b", "c.zip"]) = true ∧
      create_zip_file ["a", "b", "c.zip"] [] = ZipOutcome.fsError := by
  constructor
  · decide
  · decide

/-- C5 amended: the Archive Builder raises its validation error exactly
when the target string does not end in `.zip` (and then nothing is
written, the model returning no new listing); when the extension is valid
it creates at most ONE missing directory level — the immediate parent —
so whenever every ancestor ABOVE the immediate parent already exists (and
the target is not an existing directory) the archive is produced, with the
parent directory created if it was missing, overwriting any pre-existing
archive in place and preserving the rest of the output area; with deeper
ancestors missing it fails without writing — see the counterexample. -/
theorem C5_amended (target : Path) (out : List Entry) :
    (create_zip_file target out = ZipOutcome.validationError ↔
      endsWithZip (relStr target) = false) ∧
    (endsWithZip (relStr target) = true →
      isDirAt out (target.dropLast.dropLast) = true →
      isFileAt out target.dropLast = false →
      isDirAt out target = false →
      zipOk (create_zip_file target out) = true ∧
      (∀ out2, create_zip_file target out = ZipOutcome.ok out2 →
        isFileAt out2 target = true ∧ isDirAt out2 target.dropLast = true ∧
        ∀ e ∈ out, e ∈ out2)) := by
  constructor
  · by_cases he : endsWithZip (relStr target) = true
    · rw [he]
      unfold create_zip_file
      rw [if_pos he]
      constructor
      · intro hcon
        split at hcon
        · cases hcon
        · split at hcon
          · cases hcon
          · cases hcon
      · intro hfalse
        cases hfalse
    · have he' : endsWithZip (relStr target) = false := by
        cases hyp : endsWithZip (relStr target) with
        | true => exact absurd hyp he
        | false => rfl
      unfold create_zip_file
      rw [if_neg he]
      simp [he']
  · intro he hgp hfp hdt
    have htne : target ≠ [] := by
      rintro rfl
      rw [show endsWithZip (relStr ([] : Path)) = false from rfl] at he
      cases he
    have hne2 : target ≠ target.dropLast := by
      intro h2
      have h3 := congrArg List.length h2
      rw [List.length_dropLast] at h3
      have h4 : target.length ≠ 0 := fun hz => htne (List.length_eq_zero.mp hz)
      omega
    obtain ⟨out1, hmk, hdir1, hsub1, hfe1, hde1⟩ := mkdirNP_succeeds hgp hfp
    have hdt1 : isDirAt out1 target = false := by
      rw [hde1 target hne2]
      exact hdt
    obtain ⟨out2, hcf, hf2⟩ := copyfileAt_succeeds hdt1 hdir1
    have hcz : create_zip_file target out = ZipOutcome.ok out2 := by
      unfold create_zip_file
      rw [if_pos he]
      simp only [hmk, hcf]
    refine ⟨by rw [hcz]; rfl, ?_⟩
    intro out2' h2
    rw [hcz] at h2
    injection h2 with h2
    subst h2
    exact ⟨hf2, isDirAt_mono (copyfileAt_sub hcf) hdir1,
      fun e he2 => copyfileAt_sub hcf e (hsub1 e he2)⟩

theorem C5_amended_witness :
    endsWithZip (relStr ["dist", "lambda.zip"]) = true ∧
      isDirAt [] ((["dist", "lambda.zip"] : Path).dropLast.dropLast) = true ∧
      isFileAt [] ((["dist", "lambda.zip"] : Path).dropLast) = false ∧
      isDirAt [] (["dist", "lambda.zip"] : Path) = false ∧
      zipOk (create_zip_file ["dist", "lambda.zip"] []) = true ∧
      isFileAt [(["dist"], EKind.dir), (["dist", "lambda.zip"], EKind.file)]
        ["dist", "lambda.zip"] = true ∧
      isDirAt [(["dist"], EKind.dir), (["dist", "lambda.zip"], EKind.file)]
        ((["dist", "lambda.zip"] : Path).dropLast) = true := by
  refine ⟨by decide, by decide, by decide, by decide, ?_, ?_, ?_⟩
  · exact ((C5_amended ["dist", "lambda.zip"] []).2
      (by decide) (by decide) (by decide) (by decide)).1
  · exact (((C5_amended ["dist", "lambda.zip"] []).2
      (by decide) (by decide) (by decide) (by decide)).2
      [(["dist"], EKind.dir), (["dist", "lambda.zip"], EKind.file)] (by decide)).1
  · exact (((C5_amended ["dist", "lambda.zip"] []).2
      (by decide) (by decide) (by decide) (by decide)).2
      [(["dist"], EKind.dir), (["dist", "lambda.zip"], EKind.file)] (by decide)).2.1

/-- C7 counterexample: with neither dependency source present
(`hasReq = false`, `poetryUsed = false`), project containing only the
depth-three matched regular file `p/q/r.py` and nothing else, the pipeline
does NOT complete: dependency installation is correctly skipped with a
warning, but the copy phase raises (single-level
`mkdir(exist_ok=True)` cannot create `p/q`), `execute` aborts before
`_create_zip_file`, and no archive is produced — the event trace ends at
the copy step and the staged result is `none`, refuting "the run
completes, and the produced archive contains exactly the matched source
files". -/
theorem C7_counterexample :
    (executeModel false false false [] false []
        [FSO.dir "p" [FSO.dir "q" [FSO.file "r.py"]]] [["p", "q", "r.py"]]).events
      = [Event.warnNoDeps, Event.copySources] ∧
    (executeModel false false false [] false []
        [FSO.dir "p" [FSO.dir "q" [FSO.file "r.py"]]] [["p", "q", "r.py"]]).staged
      = none := by
  have hc : copy_source_files false [] [FSO.dir "p" [FSO.dir "q" [FSO.file "r.py"]]]
      [["p", "q", "r.py"]] [] = none := by
    simp [copy_source_files, copyObject, lookupFSO, findChild, fsoName, mkdirNP,
      isFileAt, isDirAt]
  have hexec : executeModel false false false [] false []
      [FSO.dir "p" [FSO.dir "q" [FSO.file "r.py"]]] [["p", "q", "r.py"]] =
        runCopyPhase [Event.warnNoDeps]
          (copy_source_files false [] [FSO.dir "p" [FSO.dir "q" [FSO.file "r.py"]]]
            [["p", "q", "r.py"]] []) := by
    unfold executeModel
    simp
  rw [hexec, hc]
  exact ⟨rfl, rfl⟩

theorem C9_witness :
    is_hidden_file ['a', '/', '.', 'b'] = true ↔
      ∃ seg ∈ splitOnSlash ['a', '/', '.', 'b'], startsWithDot seg = true :=
  C9_is_hidden_file_iff_segment ['a', '/', '.', 'b']

theorem C4_witness :
    Event.exportCall ∉ (executeModel true true true [] false [] [] []).events ∧
    Event.installCall true ∉ (executeModel true true true [] false [] [] []).events ∧
    Event.installCall false ∈ (executeModel true true true [] false [] [] []).events ∧
    "--no-deps" ∉
      ["python", "-m", "pip", "install", "-r", "requirements.txt", "--target", "tmp"] := by
  have h := C4_requirements_priority true true [] false [] [] []
  exact ⟨h.1, h.2.1, h.2.2.1, h.2.2.2 _ (by rfl)⟩

theorem C6_witness :
    (install_requirements_txt false "req.txt" "tmp" true = none ↔ false = false) ∧
    (executeModel false true false [] false [] [] []).events = [Event.exportCall] ∧
    Event.installCall true ∉ (executeModel false true false [] false [] [] []).events ∧
    Event.copySources ∉ (executeModel false true false [] false [] [] []).events ∧
    (executeModel false true false [] false [] [] []).staged = none := by
  have h := C6_missing_requirements_aborts "req.txt" "tmp" true [] false [] [] []
  exact ⟨h.1 false, h.2.1, h.2.2.1 true, h.2.2.2.1, h.2.2.2.2⟩

theorem C7_witness :
    Event.warnNoDeps ∈ (executeModel false false false [] false [] [] []).events ∧
    Event.installCall false ∉ (executeModel false false false [] false [] [] []).events ∧
    Event.exportCall ∉ (executeModel false false false [] false [] [] []).events ∧
    Event.copySources ∈ (executeModel false false false [] false [] [] []).events ∧
    (executeModel false false false [] false [] [] []).staged
      = copy_source_files false [] [] [] [] ∧
    Event.createZip ∈ (executeModel false false false [] false [] [] []).events := by
  have h := C7_no_dependency_source false [] false [] [] []
  refine ⟨h.1, h.2.1 false, h.2.2.1, h.2.2.2.1, h.2.2.2.2.1, ?_⟩
  exact h.2.2.2.2.2 [] (by simp [copy_source_files])

end LambdaPackager

